import Mathlib

/-!
# git-unmerged: verified model of `git_unmerged/analyzer.py`

A shallow embedding of the `GitUnmerged` analyzer.  Python strings are
modelled as `List Char` (called `Str` below) so that the string
operations the source uses — `split`, `strip`, `replace`, `startswith`,
substring containment — are ordinary recursive functions amenable to
proof.  The external `git` process is modelled as an oracle
`Str → Str` mapping the exact command string assembled by the source to
the raw stdout text of that command; `run_git_command` then strips it,
exactly as `subprocess.run(...).stdout.strip()` does.  A failing
external command is an oracle answer whose stripped text is empty,
which is precisely what the source's `except` branch produces.

The analyzer's recency cutoff `datetime.now() - timedelta(days=self.days)`
is passed in as an already-computed timestamp `cutoff_date`; timestamps
are represented by an order-preserving numeric encoding of their
calendar fields (see `encodeDT`).
-/

/-- Python `str`, modelled as a list of characters. -/
abbrev Str := List Char

/-- Python `s.split(c)` for a single-character separator `c`:
always returns at least one (possibly empty) piece. -/
def splitOnChar (c : Char) : Str → List Str
  | [] => [[]]
  | a :: rest =>
    if a = c then [] :: splitOnChar c rest
    else
      match splitOnChar c rest with
      | [] => [[a]]
      | r :: rs => (a :: r) :: rs

/-- Inverse of `splitOnChar`: join pieces with the separator `c`
(`c.join` in Python terms); used to describe git outputs that are a
newline-joined list of lines. -/
def joinChar (c : Char) : List Str → Str
  | [] => []
  | [l] => l
  | l :: ls => l ++ c :: joinChar c ls

/-- Python `s.strip()`: drop leading and trailing whitespace. -/
def pyStrip (s : Str) : Str :=
  ((s.dropWhile Char.isWhitespace).reverse.dropWhile Char.isWhitespace).reverse

/-- Recursion core of `removeAll`, structural on a fuel argument that
starts at the string's length: each step either copies one character or
consumes a whole occurrence of `pat` (which, when `pat ≠ []`, consumes
at least the one character already matched), so the fuel never runs out
when it starts at `s.length`. -/
def removeAllAux (pat : Str) : Nat → Str → Str
  | _, [] => []
  | 0, s => s
  | fuel + 1, c :: rest =>
    if pat ≠ [] ∧ pat <+: (c :: rest) then
      removeAllAux pat fuel (List.drop (pat.length - 1) rest)
    else
      c :: removeAllAux pat fuel rest

/-- Python `s.replace(pat, "")` (left-to-right, non-overlapping removal
of every occurrence of `pat`); the source only ever replaces by the
empty string. -/
def removeAll (pat s : Str) : Str := removeAllAux pat s.length s

/-- Numeric value of a decimal digit character. -/
def digitVal (c : Char) : Nat := c.toNat - 48

/-- Gregorian leap year test (as in Python's `datetime`). -/
def isLeap (y : Nat) : Bool := decide ((y % 4 = 0 ∧ y % 100 ≠ 0) ∨ y % 400 = 0)

/-- Days in a month (as validated by Python's `datetime`). -/
def daysInMonth (y m : Nat) : Nat :=
  if m = 2 then (if isLeap y then 29 else 28)
  else if m = 4 ∨ m = 6 ∨ m = 9 ∨ m = 11 then 30
  else 31

/-- Order-preserving encoding of a calendar timestamp: strictly
monotone in the lexicographic order of its in-range fields, so `≤` on
encodings agrees with Python's `datetime` comparison. -/
def encodeDT (y mo d h mi s : Nat) : Nat :=
  ((((y * 13 + mo) * 32 + d) * 24 + h) * 60 + mi) * 60 + s

/-- Modelled from the external Python standard library:
`datetime.fromisoformat`, restricted to the seconds-precision shape
`YYYY-MM-DD hh:mm:ss` — the shape the source always feeds it, since it
joins the first two space-separated tokens of git's `iso8601` date
format.  Returns `none` exactly where Python raises `ValueError`:
non-digit characters, wrong shape, or out-of-range calendar fields. -/
def fromisoformat : Str → Option Nat
  | [y1, y2, y3, y4, '-', m1, m2, '-', e1, e2, ' ', h1, h2, ':', n1, n2, ':', s1, s2] =>
    if y1.isDigit ∧ y2.isDigit ∧ y3.isDigit ∧ y4.isDigit ∧
       m1.isDigit ∧ m2.isDigit ∧ e1.isDigit ∧ e2.isDigit ∧
       h1.isDigit ∧ h2.isDigit ∧ n1.isDigit ∧ n2.isDigit ∧
       s1.isDigit ∧ s2.isDigit then
      let y := ((digitVal y1 * 10 + digitVal y2) * 10 + digitVal y3) * 10 + digitVal y4
      let mo := digitVal m1 * 10 + digitVal m2
      let d := digitVal e1 * 10 + digitVal e2
      let h := digitVal h1 * 10 + digitVal h2
      let mi := digitVal n1 * 10 + digitVal n2
      let s := digitVal s1 * 10 + digitVal s2
      if 1 ≤ y ∧ 1 ≤ mo ∧ mo ≤ 12 ∧ 1 ≤ d ∧ d ≤ daysInMonth y mo ∧
         h ≤ 23 ∧ mi ≤ 59 ∧ s ≤ 59 then
        some (encodeDT y mo d h mi s)
      else none
    else none
  | _ => none

/-- One entry of the list built by `get_recent_branches`
(the per-branch dict of analyzer.py lines 79-84). -/
structure BranchInfo where
  name : Str
  full_name : Str
  date : Nat
  date_str : Str
deriving Repr, DecidableEq

/-- One entry of the list built by `get_unmerged_commit_details`
(the per-commit dict of analyzer.py lines 118-124). -/
structure CommitInfo where
  hash : Str
  author_name : Str
  author_email : Str
  subject : Str
  date : Str
deriving Repr, DecidableEq

/-- A row of `analyze()`'s result: a `BranchInfo` enriched with the
`unmerged_commits` count and, when requested, `contributors` and
`commit_details` (analyzer.py lines 180-190). -/
structure BranchReport where
  name : Str
  full_name : Str
  date : Nat
  date_str : Str
  unmerged_commits : Nat
  contributors : Option (List Str)
  commit_details : Option (List CommitInfo)
deriving Repr, DecidableEq

/-- The external git process: raw stdout of each command string. -/
def GitOracle : Type := Str → Str

/-- analyzer.py lines 28-41: run a command and return
`result.stdout.strip()`; an invocation failure yields empty output. -/
def run_git_command (git : GitOracle) (cmd : Str) : Str :=
  pyStrip (git cmd)

/-- The literal `'origin/'` prefix the source strips. -/
def originSlash : Str := "origin/".data

/-- The literal branch name `'origin'` rejected at line 68. -/
def originName : Str := "origin".data

/-- The literal substring `'HEAD'` rejected at line 68. -/
def headMark : Str := "HEAD".data

/-- analyzer.py line 48: the branch-listing command. -/
def branch_list_cmd : Str :=
  "git branch -r --format=\"%(refname:short)|%(committerdate:iso8601)\"".data

/-- analyzer.py line 57: `self.ignore_pattern and self.ignore_pattern in line`
(a `None` or empty pattern is falsy and filters nothing). -/
def ignoreHit : Option Str → Str → Bool
  | none, _ => false
  | some p, line => decide (p ≠ [] ∧ p <:+: line)

/-- analyzer.py lines 73-75: `date_str.split(' ')[0] + ' ' + date_str.split(' ')[1]`
fed to `fromisoformat`; an `IndexError` (fewer than two tokens) is
caught by the surrounding `except` and yields `none`. -/
def parse_date_part (date_str : Str) : Option Nat :=
  match splitOnChar ' ' date_str with
  | p0 :: p1 :: _ => fromisoformat (p0 ++ ' ' :: p1)
  | _ => none

/-- The body of the per-line loop of `get_recent_branches`
(analyzer.py lines 52-86): returns the branch entry the line appends,
or `none` when the line is skipped by any `continue`. -/
def processLine (ignore_pattern : Option Str) (cutoff_date : Nat) (line : Str) :
    Option BranchInfo :=
  if line = [] then none
  else if ignoreHit ignore_pattern line then none
  else
    match splitOnChar '|' line with
    | [p0, p1] =>
      let branch_name := pyStrip p0
      let date_str := pyStrip p1
      if branch_name = originName ∨ headMark <:+: branch_name then none
      else
        match parse_date_part date_str with
        | none => none
        | some commit_date =>
          if cutoff_date ≤ commit_date then
            some { name := removeAll originSlash branch_name,
                   full_name := branch_name,
                   date := commit_date,
                   date_str := date_str }
          else none
    | _ => none

/-- analyzer.py lines 43-88: `get_recent_branches`.  The Python loop
appends at most one entry per line with no state across lines, so it is
exactly a `filterMap` of `processLine` over the split output. -/
def get_recent_branches (git : GitOracle) (ignore_pattern : Option Str)
    (cutoff_date : Nat) : List BranchInfo :=
  (splitOnChar '\n' (run_git_command git branch_list_cmd)).filterMap
    (processLine ignore_pattern cutoff_date)

/-- analyzer.py lines 92-93 (and 104-105, 130-131): prepend `origin/`
unless the name already starts with it. -/
def normalize_branch (branch_name : Str) : Str :=
  if originSlash <+: branch_name then branch_name
  else originSlash ++ branch_name

/-- analyzer.py line 94: `git log {base}..{remote} --oneline`. -/
def oneline_cmd (base_branch remote_branch : Str) : Str :=
  "git log ".data ++ base_branch ++ "..".data ++ remote_branch ++ " --oneline".data

/-- analyzer.py line 106: the `--format="%h|%an|%ae|%s|%ci"` log command. -/
def details_cmd (base_branch remote_branch : Str) : Str :=
  "git log ".data ++ base_branch ++ "..".data ++ remote_branch ++
    " --format=\"%h|%an|%ae|%s|%ci\"".data

/-- analyzer.py line 132: the `--format="%an <%ae>"` log command. -/
def contributors_cmd (base_branch remote_branch : Str) : Str :=
  "git log ".data ++ base_branch ++ "..".data ++ remote_branch ++
    " --format=\"%an <%ae>\"".data

/-- analyzer.py lines 90-100: `get_unmerged_commits`. -/
def get_unmerged_commits (git : GitOracle) (base_branch branch_name : Str) : Nat :=
  let output := run_git_command git (oneline_cmd base_branch (normalize_branch branch_name))
  if output = [] then 0
  else (splitOnChar '\n' output).length

/-- analyzer.py lines 113-124: parse one line of the details output;
skipped when empty or when it does not split into exactly five fields. -/
def parseCommitLine (line : Str) : Option CommitInfo :=
  if line = [] then none
  else
    match splitOnChar '|' line with
    | [p0, p1, p2, p3, p4] =>
      some { hash := p0, author_name := p1, author_email := p2,
             subject := p3, date := p4 }
    | _ => none

/-- analyzer.py lines 102-126: `get_unmerged_commit_details`. -/
def get_unmerged_commit_details (git : GitOracle) (base_branch branch_name : Str) :
    List CommitInfo :=
  let output := run_git_command git (details_cmd base_branch (normalize_branch branch_name))
  if output = [] then []
  else (splitOnChar '\n' output).filterMap parseCommitLine

/-- analyzer.py lines 141-144: append an authors line unless it is
empty or already present (`seen` mirrors membership in the accumulator). -/
def dedupStep (acc : List Str) (line : Str) : List Str :=
  if line ≠ [] ∧ line ∉ acc then acc ++ [line] else acc

/-- analyzer.py lines 128-146: `get_contributors`. -/
def get_contributors (git : GitOracle) (base_branch branch_name : Str) : List Str :=
  let output := run_git_command git (contributors_cmd base_branch (normalize_branch branch_name))
  if output = [] then []
  else (splitOnChar '\n' output).foldl dedupStep []

/-- The body of the per-branch loop of `analyze` (analyzer.py lines
175-190): skip the base branch, compute the count, keep the branch only
when it is positive, optionally enrich. -/
def enrich (git : GitOracle) (base_branch base_branch_name : Str)
    (include_contributors include_commit_details : Bool) (branch : BranchInfo) :
    Option BranchReport :=
  if branch.name = base_branch_name then none
  else
    let unmerged_count := get_unmerged_commits git base_branch branch.name
    if 0 < unmerged_count then
      some { name := branch.name, full_name := branch.full_name,
             date := branch.date, date_str := branch.date_str,
             unmerged_commits := unmerged_count,
             contributors :=
               if include_contributors then
                 some (get_contributors git base_branch branch.name)
               else none,
             commit_details :=
               if include_commit_details then
                 some (get_unmerged_commit_details git base_branch branch.name)
               else none }
    else none

/-- analyzer.py line 193: the descending-by-date comparison used by
`sort(key=lambda x: x['date'], reverse=True)`. -/
def sortLe (a b : BranchReport) : Bool := decide (b.date ≤ a.date)

/-- analyzer.py lines 153-195: `analyze`.  The optional `fetch` only
side-effects the external repository; the oracle is the post-fetch
snapshot, so it does not appear here.  Python's stable sort with
`reverse=True` is `mergeSort` under `sortLe`. -/
def analyze (git : GitOracle) (base_branch : Str) (ignore_pattern : Option Str)
    (cutoff_date : Nat) (include_contributors include_commit_details : Bool) :
    List BranchReport :=
  let recent_branches := get_recent_branches git ignore_pattern cutoff_date
  let base_branch_name := removeAll originSlash base_branch
  (recent_branches.filterMap
    (enrich git base_branch base_branch_name include_contributors include_commit_details)).mergeSort
      sortLe


/-! ## String-level lemmas -/

theorem splitOnChar_of_not_mem {c : Char} {xs : Str} (h : c ∉ xs) :
    splitOnChar c xs = [xs] := by
  induction xs with
  | nil => rfl
  | cons a rest ih =>
    have ha : ¬ a = c := fun e => h (e ▸ List.mem_cons_self a rest)
    have hr : c ∉ rest := fun m => h (List.mem_cons_of_mem a m)
    simp [splitOnChar, ha, ih hr]

theorem splitOnChar_append_cons {c : Char} {xs ys : Str} (h : c ∉ xs) :
    splitOnChar c (xs ++ c :: ys) = xs :: splitOnChar c ys := by
  induction xs with
  | nil => simp [splitOnChar]
  | cons a rest ih =>
    have ha : ¬ a = c := fun e => h (e ▸ List.mem_cons_self a rest)
    have hr : c ∉ rest := fun m => h (List.mem_cons_of_mem a m)
    rw [List.cons_append]
    show (if a = c then [] :: splitOnChar c (rest ++ c :: ys)
          else match splitOnChar c (rest ++ c :: ys) with
          | [] => [[a]]
          | r :: rs => (a :: r) :: rs) = (a :: rest) :: splitOnChar c ys
    rw [if_neg ha, ih hr]

theorem splitOnChar_joinChar {c : Char} :
    ∀ {ls : List Str}, ls ≠ [] → (∀ l ∈ ls, c ∉ l) →
      splitOnChar c (joinChar c ls) = ls
  | [], h, _ => absurd rfl h
  | [l], _, hc => by
    simp [joinChar, splitOnChar_of_not_mem (hc l (by simp))]
  | l :: l2 :: ls, _, hc => by
    have h1 : c ∉ l := hc l (by simp)
    have hrest : ∀ x ∈ l2 :: ls, c ∉ x := fun x hx => hc x (List.mem_cons_of_mem l hx)
    have ih := @splitOnChar_joinChar c (l2 :: ls) (by simp) hrest
    show splitOnChar c (l ++ c :: joinChar c (l2 :: ls)) = l :: l2 :: ls
    rw [splitOnChar_append_cons h1, ih]

theorem joinChar_cons_ne_nil {c : Char} {l : Str} {ls : List Str} (h : l ≠ []) :
    joinChar c (l :: ls) ≠ [] := by
  cases ls with
  | nil => simpa [joinChar] using h
  | cons l2 ls => simp [joinChar]

/-- The branch-name field of a listing line: `line.split('|')[0].strip()`. -/
def lineNameField (line : Str) : Str :=
  pyStrip ((splitOnChar '|' line).headD [])

/-- The timestamp a listing line carries: `line.split('|')[1].strip()` fed
through the two-token join and `fromisoformat`; `none` when the line does
not have exactly two fields or the timestamp does not parse. -/
def lineTimestamp (line : Str) : Option Nat :=
  match splitOnChar '|' line with
  | [_, p1] => parse_date_part (pyStrip p1)
  | _ => none

theorem processLine_some_spec {ip : Option Str} {cutoff : Nat} {line : Str}
    {b : BranchInfo} (h : processLine ip cutoff line = some b) :
    b.full_name = lineNameField line ∧
    b.name = removeAll originSlash b.full_name ∧
    b.full_name ≠ originName ∧
    ¬ (headMark <:+: b.full_name) ∧
    lineTimestamp line = some b.date ∧
    cutoff ≤ b.date := by
  by_cases hnil : line = []
  · simp [processLine, hnil] at h
  · by_cases hig : ignoreHit ip line = true
    · simp [processLine, hnil, hig] at h
    · rcases hsplit : splitOnChar '|' line with _ | ⟨p0, _ | ⟨p1, _ | ⟨t, ts⟩⟩⟩
      · simp [processLine, hnil, hig, hsplit] at h
      · simp [processLine, hnil, hig, hsplit] at h
      · by_cases hskip : pyStrip p0 = originName ∨ headMark <:+: pyStrip p0
        · simp [processLine, hnil, hig, hsplit, hskip] at h
        · rcases hparse : parse_date_part (pyStrip p1) with _ | tm
          · simp [processLine, hnil, hig, hsplit, hskip, hparse] at h
          · by_cases hcut : cutoff ≤ tm
            · simp only [processLine, if_neg hnil, hig, Bool.false_eq_true, if_false,
                hsplit, hskip, hparse, if_pos hcut] at h
              injection h with h
              subst h
              push_neg at hskip
              refine ⟨?_, rfl, hskip.1, hskip.2, ?_, hcut⟩
              · simp [lineNameField, hsplit]
              · simp [lineTimestamp, hsplit, hparse]
            · simp [processLine, hnil, hig, hsplit, hskip, hparse, hcut] at h
      · simp [processLine, hnil, hig, hsplit] at h

theorem enrich_some_spec {git : GitOracle} {base bname : Str} {ic icd : Bool}
    {branch : BranchInfo} {r : BranchReport}
    (h : enrich git base bname ic icd branch = some r) :
    r.name = branch.name ∧ r.full_name = branch.full_name ∧
    r.date = branch.date ∧ branch.name ≠ bname ∧
    r.unmerged_commits = get_unmerged_commits git base branch.name ∧
    0 < r.unmerged_commits := by
  by_cases h1 : branch.name = bname
  · simp [enrich, h1] at h
  · by_cases h2 : 0 < get_unmerged_commits git base branch.name
    · simp only [enrich, if_neg h1, if_pos h2] at h
      injection h with h
      subst h
      exact ⟨rfl, rfl, rfl, h1, rfl, h2⟩
    · simp [enrich, h1, h2] at h

theorem mem_get_recent_branches {git : GitOracle} {ip : Option Str} {cutoff : Nat}
    {b : BranchInfo} :
    b ∈ get_recent_branches git ip cutoff ↔
    ∃ line ∈ splitOnChar '\n' (run_git_command git branch_list_cmd),
      processLine ip cutoff line = some b := by
  simp [get_recent_branches, List.mem_filterMap]

theorem mem_analyze {git : GitOracle} {base : Str} {ip : Option Str} {cutoff : Nat}
    {ic icd : Bool} {r : BranchReport} :
    r ∈ analyze git base ip cutoff ic icd ↔
    ∃ branch ∈ get_recent_branches git ip cutoff,
      enrich git base (removeAll originSlash base) ic icd branch = some r := by
  simp [analyze, List.mem_mergeSort, List.mem_filterMap]

/-! ## A concrete repository snapshot for instantiating the theorems -/

/-- The default base branch `origin/dev` used by the concrete instances. -/
def devBase : Str := "origin/dev".data

/-- A concrete snapshot: two recent feature branches with one and two
unmerged commits respectively. -/
def demo_git : GitOracle := fun cmd =>
  if cmd = branch_list_cmd then
    ("origin/feature/a|2024-01-05 10:00:00 +0300\n" ++
     "origin/feature/b|2024-01-02 03:04:05 +0300").data
  else if cmd = oneline_cmd devBase ("origin/feature/a".data) then
    "abc1 fix a".data
  else if cmd = oneline_cmd devBase ("origin/feature/b".data) then
    ("abc2 fix b\nabc3 more b").data
  else []

/-- The first report row `analyze` produces on `demo_git`. -/
def demo_rowA : BranchReport :=
  { name := "feature/a".data, full_name := "origin/feature/a".data,
    date := encodeDT 2024 1 5 10 0 0, date_str := "2024-01-05 10:00:00 +0300".data,
    unmerged_commits := 1, contributors := none, commit_details := none }

/-- The second report row `analyze` produces on `demo_git`. -/
def demo_rowB : BranchReport :=
  { name := "feature/b".data, full_name := "origin/feature/b".data,
    date := encodeDT 2024 1 2 3 4 5, date_str := "2024-01-02 03:04:05 +0300".data,
    unmerged_commits := 2, contributors := none, commit_details := none }

/-- Concrete evaluation of the whole pipeline on `demo_git`. -/
theorem demo_analyze_eq :
    analyze demo_git devBase none 0 false false = [demo_rowA, demo_rowB] := by
  show ((get_recent_branches demo_git none 0).filterMap
    (enrich demo_git devBase (removeAll originSlash devBase) false false)).mergeSort sortLe = _
  rw [show (get_recent_branches demo_git none 0).filterMap
    (enrich demo_git devBase (removeAll originSlash devBase) false false)
      = [demo_rowA, demo_rowB] from rfl]
  exact List.mergeSort_of_sorted (by decide)

theorem demo_rowA_mem : demo_rowA ∈ analyze demo_git devBase none 0 false false := by
  rw [demo_analyze_eq]
  exact List.mem_cons_self _ _

/-! ## The claims -/

/-- C3: no row of `analyze()` has a stripped name equal to the base
branch's stripped name, whichever way `base_branch` is qualified. -/
theorem c3_base_branch_absent (git : GitOracle) (base : Str) (ip : Option Str)
    (cutoff : Nat) (ic icd : Bool) (r : BranchReport)
    (hr : r ∈ analyze git base ip cutoff ic icd) :
    r.name ≠ removeAll originSlash base := by
  obtain ⟨branch, _, he⟩ := mem_analyze.mp hr
  obtain ⟨hn, _, _, hne, _, _⟩ := enrich_some_spec he
  rw [hn]
  exact hne

theorem c3_base_branch_absent_witness :
    demo_rowA ∈ analyze demo_git devBase none 0 false false ∧
    demo_rowA.name ≠ removeAll originSlash devBase :=
  ⟨demo_rowA_mem,
   c3_base_branch_absent demo_git devBase none 0 false false demo_rowA demo_rowA_mem⟩

/-- C5: every row of `analyze()` carries a strictly positive
`unmerged_commits` count, namely the one `get_unmerged_commits` computes
for its name, and a recent branch whose computed count is zero
contributes no row. -/
theorem c5_rows_have_positive_count (git : GitOracle) (base : Str) (ip : Option Str)
    (cutoff : Nat) (ic icd : Bool) (r : BranchReport)
    (hr : r ∈ analyze git base ip cutoff ic icd) :
    0 < r.unmerged_commits ∧
    r.unmerged_commits = get_unmerged_commits git base r.name ∧
    ∀ b ∈ get_recent_branches git ip cutoff,
      get_unmerged_commits git base b.name = 0 → r.full_name ≠ b.full_name := by
  obtain ⟨branch, hb, he⟩ := mem_analyze.mp hr
  obtain ⟨hn, hf, _, _, hcnt, hpos⟩ := enrich_some_spec he
  refine ⟨hpos, by rw [hn]; exact hcnt, ?_⟩
  intro b hb0 hz heq
  obtain ⟨line, _, hpl⟩ := mem_get_recent_branches.mp hb
  obtain ⟨_, hbn, _, _, _, _⟩ := processLine_some_spec hpl
  obtain ⟨line2, _, hpl2⟩ := mem_get_recent_branches.mp hb0
  obtain ⟨_, hbn2, _, _, _, _⟩ := processLine_some_spec hpl2
  have hname : branch.name = b.name := by
    rw [hbn, hbn2, ← hf, heq]
  rw [hcnt, hname, hz] at hpos
  exact Nat.lt_irrefl 0 hpos

theorem c5_rows_have_positive_count_witness :
    0 < demo_rowA.unmerged_commits ∧
    demo_rowA.unmerged_commits = get_unmerged_commits demo_git devBase demo_rowA.name ∧
    ∀ b ∈ get_recent_branches demo_git none 0,
      get_unmerged_commits demo_git devBase b.name = 0 →
        demo_rowA.full_name ≠ b.full_name :=
  c5_rows_have_positive_count demo_git devBase none 0 false false demo_rowA demo_rowA_mem

/-- C6: the report is sorted by last-commit time in non-increasing
order — over every pair of rows, hence over every adjacent pair. -/
theorem c6_sorted_by_date_descending (git : GitOracle) (base : Str) (ip : Option Str)
    (cutoff : Nat) (ic icd : Bool) :
    (analyze git base ip cutoff ic icd).Pairwise (fun a b => b.date ≤ a.date) := by
  have htrans : ∀ (a b c : BranchReport), sortLe a b → sortLe b c → sortLe a c := by
    intro a b c hab hbc
    simp only [sortLe, decide_eq_true_eq] at *
    omega
  have htotal : ∀ (a b : BranchReport), sortLe a b || sortLe b a := by
    intro a b
    simp [sortLe, Nat.le_total]
  unfold analyze
  have h := List.sorted_mergeSort htrans htotal
    ((get_recent_branches git ip cutoff).filterMap
      (enrich git base (removeAll originSlash base) ic icd))
  exact h.imp (fun hab => by simpa [sortLe] using hab)

/-- C10: neither the remote's own entry `origin` nor any ref whose name
contains `HEAD` survives `get_recent_branches`, hence none reaches
`analyze`'s output. -/
theorem c10_origin_and_head_excluded (git : GitOracle) (base : Str) (ip : Option Str)
    (cutoff : Nat) (ic icd : Bool) :
    (∀ b ∈ get_recent_branches git ip cutoff,
        b.full_name ≠ originName ∧ ¬ (headMark <:+: b.full_name)) ∧
    (∀ r ∈ analyze git base ip cutoff ic icd,
        r.full_name ≠ originName ∧ ¬ (headMark <:+: r.full_name)) := by
  constructor
  · intro b hb
    obtain ⟨line, _, hpl⟩ := mem_get_recent_branches.mp hb
    obtain ⟨_, _, h3, h4, _, _⟩ := processLine_some_spec hpl
    exact ⟨h3, h4⟩
  · intro r hr
    obtain ⟨branch, hb, he⟩ := mem_analyze.mp hr
    obtain ⟨_, hf, _, _, _, _⟩ := enrich_some_spec he
    obtain ⟨line, _, hpl⟩ := mem_get_recent_branches.mp hb
    obtain ⟨_, _, h3, h4, _, _⟩ := processLine_some_spec hpl
    rw [hf]
    exact ⟨h3, h4⟩

theorem c10_origin_and_head_excluded_witness :
    demo_rowA.full_name ≠ originName ∧ ¬ (headMark <:+: demo_rowA.full_name) :=
  (c10_origin_and_head_excluded demo_git devBase none 0 false false).2
    demo_rowA demo_rowA_mem

/-- A snapshot whose only listing line has a timestamp containing the
substring `2024` while the branch-name field does not. -/
def c2_git : GitOracle := fun cmd =>
  if cmd = branch_list_cmd then "feature/a|2024-01-02 03:04:05 +0300".data
  else []

/-- C2 counterexample: with ignore-substring `2024` configured, the
branch named `feature/a` is rejected although its remote-qualified name
does not contain `2024` — the filter matches the whole listing line,
timestamp included — while with no ignore-substring the branch survives. -/
theorem c2_counterexample :
    ¬ ("2024".data <:+: "feature/a".data) ∧
    get_recent_branches c2_git (some ("2024".data)) 0 = [] ∧
    (get_recent_branches c2_git none 0).map BranchInfo.full_name = ["feature/a".data] :=
  ⟨by decide, rfl, rfl⟩

/-- C2 (amended): the ignore filter tests substring containment on the
whole raw listing line (branch name and timestamp together): a
configured non-empty pattern contained in the line drops the line; a
pattern that is empty or absent from the line leaves the line's
processing exactly as if no pattern were configured, and no pattern
rejects nothing. -/
theorem c2_ignore_filter_on_whole_line (p line : Str) (cutoff : Nat) :
    (p ≠ [] → p <:+: line → processLine (some p) cutoff line = none) ∧
    ((p = [] ∨ ¬ (p <:+: line)) →
      processLine (some p) cutoff line = processLine none cutoff line) := by
  constructor
  · intro hp hinf
    by_cases hnil : line = []
    · simp [processLine, hnil]
    · simp [processLine, hnil, ignoreHit, hp, hinf]
  · intro hcase
    have hig : ignoreHit (some p) line = false := by
      rcases hcase with h | h
      · simp [ignoreHit, h]
      · simp [ignoreHit, h]
    have hig0 : ignoreHit none line = false := rfl
    simp only [processLine, hig, hig0]

theorem c2_ignore_filter_on_whole_line_witness :
    processLine (some ("2024".data)) 0 ("feature/a|2024-01-02 03:04:05 +0300".data) = none ∧
    processLine (some ("zzz".data)) 0 ("feature/a|2024-01-02 03:04:05 +0300".data)
      = processLine none 0 ("feature/a|2024-01-02 03:04:05 +0300".data) :=
  ⟨(c2_ignore_filter_on_whole_line ("2024".data)
      ("feature/a|2024-01-02 03:04:05 +0300".data) 0).1 (by decide) (by decide),
   (c2_ignore_filter_on_whole_line ("zzz".data)
      ("feature/a|2024-01-02 03:04:05 +0300".data) 0).2 (Or.inr (by decide))⟩

/-- The un-enriched entry behind `demo_rowA`. -/
def demo_branchA : BranchInfo :=
  { name := "feature/a".data, full_name := "origin/feature/a".data,
    date := encodeDT 2024 1 5 10 0 0, date_str := "2024-01-05 10:00:00 +0300".data }

/-- The listing line that produces `demo_branchA`. -/
def demo_lineA : Str := "origin/feature/a|2024-01-05 10:00:00 +0300".data

/-- A listing line whose timestamp does not parse. -/
def badLine : Str := "origin/bad|garbage".data

/-- C8: a listing line contributes a branch only if its timestamp field
parses and meets the recency cutoff (conjunct 1); a line that
contributes nothing — in particular one whose timestamp fails to
parse — is skipped while all other lines are still processed
(conjunct 2); and `get_recent_branches` is exactly this line-wise
filter (conjunct 3). -/
theorem c8_timestamp_gate_and_batch_continues :
    (∀ (ip : Option Str) (cutoff : Nat) (line : Str) (b : BranchInfo),
      processLine ip cutoff line = some b →
        lineTimestamp line = some b.date ∧ cutoff ≤ b.date) ∧
    (∀ (ip : Option Str) (cutoff : Nat) (l1 l2 : List Str) (x : Str),
      processLine ip cutoff x = none →
        (l1 ++ x :: l2).filterMap (processLine ip cutoff)
          = (l1 ++ l2).filterMap (processLine ip cutoff)) ∧
    (∀ (git : GitOracle) (ip : Option Str) (cutoff : Nat),
      get_recent_branches git ip cutoff
        = (splitOnChar '\n' (run_git_command git branch_list_cmd)).filterMap
            (processLine ip cutoff)) := by
  refine ⟨?_, ?_, ?_⟩
  · intro ip cutoff line b h
    obtain ⟨_, _, _, _, h5, h6⟩ := processLine_some_spec h
    exact ⟨h5, h6⟩
  · intro ip cutoff l1 l2 x hx
    simp [List.filterMap_append, List.filterMap_cons, hx]
  · intro git ip cutoff
    rfl

theorem c8_timestamp_gate_and_batch_continues_witness :
    (lineTimestamp demo_lineA = some demo_branchA.date ∧ 0 ≤ demo_branchA.date) ∧
    [demo_lineA, badLine].filterMap (processLine none 0)
      = [demo_lineA].filterMap (processLine none 0) := by
  refine ⟨c8_timestamp_gate_and_batch_continues.1 none 0 demo_lineA demo_branchA rfl, ?_⟩
  have h := c8_timestamp_gate_and_batch_continues.2.1 none 0 [demo_lineA] [] badLine rfl
  simpa using h

/-- C9: an underlying query with no (stripped) output yields a zero
count or an empty list, and an oracle all of whose queries fail makes
`analyze()` return the empty report — no failure escapes the module;
each is absorbed into an empty result. -/
theorem c9_failures_absorbed :
    (∀ (git : GitOracle) (base b : Str),
      run_git_command git (oneline_cmd base (normalize_branch b)) = [] →
        get_unmerged_commits git base b = 0) ∧
    (∀ (git : GitOracle) (base b : Str),
      run_git_command git (details_cmd base (normalize_branch b)) = [] →
        get_unmerged_commit_details git base b = []) ∧
    (∀ (git : GitOracle) (base b : Str),
      run_git_command git (contributors_cmd base (normalize_branch b)) = [] →
        get_contributors git base b = []) ∧
    (∀ (git : GitOracle) (ip : Option Str) (cutoff : Nat),
      run_git_command git branch_list_cmd = [] →
        get_recent_branches git ip cutoff = []) ∧
    (∀ (base : Str) (ip : Option Str) (cutoff : Nat) (ic icd : Bool),
      analyze (fun _ => []) base ip cutoff ic icd = []) := by
  refine ⟨?_, ?_, ?_, ?_, ?_⟩
  · intro git base b h
    simp [get_unmerged_commits, h]
  · intro git base b h
    simp [get_unmerged_commit_details, h]
  · intro git base b h
    simp [get_contributors, h]
  · intro git ip cutoff h
    unfold get_recent_branches
    rw [h]
    rfl
  · intro base ip cutoff ic icd
    unfold analyze
    rw [show get_recent_branches (fun _ => ([] : Str)) ip cutoff = [] from rfl]
    simp

theorem c9_failures_absorbed_witness :
    get_unmerged_commits (fun _ => []) devBase ("x".data) = 0 ∧
    analyze (fun _ => []) devBase none 0 true true = [] :=
  ⟨c9_failures_absorbed.1 (fun _ => []) devBase ("x".data) rfl,
   c9_failures_absorbed.2.2.2.2 devBase none 0 true true⟩

/-- Spec-side description of `contributors`: keep each entry at its
first appearance, dropping every later duplicate. -/
def firstSeenDedup : List Str → List Str
  | [] => []
  | x :: xs => x :: firstSeenDedup (xs.filter (fun y => decide (y ≠ x)))
termination_by l => l.length
decreasing_by
  simp only [List.length_cons]
  exact Nat.lt_succ_of_le (List.length_filter_le _ _)

theorem mem_firstSeenDedup : ∀ (l : List Str) (a : Str), a ∈ firstSeenDedup l → a ∈ l
  | [], a, h => by simp [firstSeenDedup] at h
  | x :: xs, a, h => by
    rw [firstSeenDedup] at h
    rcases List.mem_cons.mp h with h1 | h2
    · exact h1 ▸ List.mem_cons_self x xs
    · have hm := mem_firstSeenDedup (xs.filter (fun y => decide (y ≠ x))) a h2
      exact List.mem_cons_of_mem x (List.mem_of_mem_filter hm)
termination_by l => l.length
decreasing_by
  simp only [List.length_cons]
  exact Nat.lt_succ_of_le (List.length_filter_le _ _)

theorem firstSeenDedup_nodup : ∀ (l : List Str), (firstSeenDedup l).Nodup
  | [] => by simp [firstSeenDedup]
  | x :: xs => by
    rw [firstSeenDedup]
    refine List.nodup_cons.mpr ⟨?_, firstSeenDedup_nodup _⟩
    intro hmem
    have h := mem_firstSeenDedup _ _ hmem
    have hdec := List.of_mem_filter h
    simp at hdec
termination_by l => l.length
decreasing_by
  simp only [List.length_cons]
  exact Nat.lt_succ_of_le (List.length_filter_le _ _)

theorem foldl_dedupStep (lines : List Str) :
    ∀ acc : List Str, lines.foldl dedupStep acc
      = acc ++ firstSeenDedup (lines.filter (fun l => decide (l ≠ [] ∧ l ∉ acc))) := by
  induction lines with
  | nil =>
    intro acc
    simp [firstSeenDedup]
  | cons x xs ih =>
    intro acc
    by_cases hx : x ≠ [] ∧ x ∉ acc
    · have hstep : dedupStep acc x = acc ++ [x] := by simp [dedupStep, hx.1, hx.2]
      have hfx : List.filter (fun l => decide (l ≠ [] ∧ l ∉ acc)) (x :: xs)
          = x :: List.filter (fun l => decide (l ≠ [] ∧ l ∉ acc)) xs := by
        simp [List.filter_cons, hx.1, hx.2]
      rw [List.foldl_cons, hstep, ih, hfx, firstSeenDedup]
      have hfilters : xs.filter (fun l => decide (l ≠ [] ∧ l ∉ acc ++ [x]))
          = (xs.filter (fun l => decide (l ≠ [] ∧ l ∉ acc))).filter
              (fun y => decide (y ≠ x)) := by
        rw [List.filter_filter]
        apply List.filter_congr
        intro a _
        rw [← Bool.decide_and, decide_eq_decide]
        simp only [List.mem_append, List.mem_singleton]
        tauto
      rw [hfilters, List.append_assoc, List.singleton_append]
    · have hstep : dedupStep acc x = acc := by
        unfold dedupStep
        rw [if_neg hx]
      have hfx : List.filter (fun l => decide (l ≠ [] ∧ l ∉ acc)) (x :: xs)
          = List.filter (fun l => decide (l ≠ [] ∧ l ∉ acc)) xs := by
        simp only [List.filter_cons]
        rw [if_neg]
        simpa using hx
      rw [List.foldl_cons, hstep, ih, hfx]

/-- C7: `get_contributors` returns duplicate-free entries, equal to the
first-appearance-order deduplication of the non-empty lines of the
underlying query output. -/
theorem c7_contributors_nodup_first_seen_order (git : GitOracle) (base b : Str) :
    (get_contributors git base b).Nodup ∧
    get_contributors git base b
      = firstSeenDedup ((splitOnChar '\n' (run_git_command git
          (contributors_cmd base (normalize_branch b)))).filter
            (fun l => decide (l ≠ []))) := by
  have key : ∀ lines : List Str, lines.foldl dedupStep []
      = firstSeenDedup (lines.filter (fun l => decide (l ≠ []))) := by
    intro lines
    rw [foldl_dedupStep]
    rw [List.nil_append]
    congr 1
    apply List.filter_congr
    intro a _
    simp
  constructor
  · simp only [get_contributors]
    split
    · exact List.nodup_nil
    · rw [key]
      exact firstSeenDedup_nodup _
  · simp only [get_contributors]
    split
    next h =>
      rw [h]
      show ([] : List Str) = firstSeenDedup ([[]].filter (fun l => decide (l ≠ [])))
      simp [firstSeenDedup]
    next h =>
      rw [key]

/-- A snapshot listing two distinct remote refs — `origin/x` and
`origin/origin/x` — whose display names both strip to `x` (the source
strips every occurrence of `origin/`, and both rows then query the same
normalized branch `origin/x`). -/
def c4_git : GitOracle := fun cmd =>
  if cmd = branch_list_cmd then
    ("origin/x|2024-01-02 03:04:05 +0300\n" ++
     "origin/origin/x|2024-01-02 03:04:05 +0300").data
  else if cmd = oneline_cmd devBase ("origin/x".data) then "abc1 fix".data
  else []

/-- First row produced on `c4_git`. -/
def c4_row1 : BranchReport :=
  { name := "x".data, full_name := "origin/x".data,
    date := encodeDT 2024 1 2 3 4 5, date_str := "2024-01-02 03:04:05 +0300".data,
    unmerged_commits := 1, contributors := none, commit_details := none }

/-- Second row produced on `c4_git`: same display name, different ref. -/
def c4_row2 : BranchReport :=
  { name := "x".data, full_name := "origin/origin/x".data,
    date := encodeDT 2024 1 2 3 4 5, date_str := "2024-01-02 03:04:05 +0300".data,
    unmerged_commits := 1, contributors := none, commit_details := none }

theorem c4_analyze_eq :
    analyze c4_git devBase none 0 false false = [c4_row1, c4_row2] := by
  show ((get_recent_branches c4_git none 0).filterMap
    (enrich c4_git devBase (removeAll originSlash devBase) false false)).mergeSort sortLe = _
  rw [show (get_recent_branches c4_git none 0).filterMap
    (enrich c4_git devBase (removeAll originSlash devBase) false false)
      = [c4_row1, c4_row2] from rfl]
  exact List.mergeSort_of_sorted (by decide)

/-- C4 counterexample: on `c4_git`, `analyze()` returns two rows that
share the display name `x`. -/
theorem c4_counterexample :
    ¬ ((analyze c4_git devBase none 0 false false).Pairwise
        (fun r1 r2 => r1.name ≠ r2.name)) := by
  rw [c4_analyze_eq]
  decide

/-- C4 (amended): display names can collide — two distinct refs may
strip to the same name — but rows are per listing line: whenever the
branch-name fields of the listing lines are pairwise distinct, the
rows' `full_name`s are pairwise distinct. -/
theorem c4_full_names_pairwise_distinct (git : GitOracle) (base : Str)
    (ip : Option Str) (cutoff : Nat) (ic icd : Bool)
    (h : (splitOnChar '\n' (run_git_command git branch_list_cmd)).Pairwise
      (fun l1 l2 => lineNameField l1 ≠ lineNameField l2)) :
    (analyze git base ip cutoff ic icd).Pairwise
      (fun r1 r2 => r1.full_name ≠ r2.full_name) := by
  have h1 : (get_recent_branches git ip cutoff).Pairwise
      (fun b1 b2 => b1.full_name ≠ b2.full_name) := by
    unfold get_recent_branches
    refine List.Pairwise.filterMap _ ?_ h
    intro l1 l2 hne b1 hb1 b2 hb2
    obtain ⟨e1, _⟩ := processLine_some_spec (Option.mem_def.mp hb1)
    obtain ⟨e2, _⟩ := processLine_some_spec (Option.mem_def.mp hb2)
    rw [e1, e2]
    exact hne
  have h2 : ((get_recent_branches git ip cutoff).filterMap
      (enrich git base (removeAll originSlash base) ic icd)).Pairwise
      (fun r1 r2 => r1.full_name ≠ r2.full_name) := by
    refine List.Pairwise.filterMap _ ?_ h1
    intro b1 b2 hne r1 hr1 r2 hr2
    obtain ⟨_, f1, _⟩ := enrich_some_spec (Option.mem_def.mp hr1)
    obtain ⟨_, f2, _⟩ := enrich_some_spec (Option.mem_def.mp hr2)
    rw [f1, f2]
    exact hne
  unfold analyze
  exact ((List.mergeSort_perm _ sortLe).pairwise_iff
    (fun hab e => hab e.symm)).mpr h2

theorem c4_full_names_pairwise_distinct_witness :
    (analyze demo_git devBase none 0 false false).Pairwise
      (fun r1 r2 => r1.full_name ≠ r2.full_name) :=
  c4_full_names_pairwise_distinct demo_git devBase none 0 false false (by decide)

/-- One line of the `--oneline` log output for a commit: short hash,
a space, then the subject — the shape `git log --oneline` prints. -/
def oneline_line (c : CommitInfo) : Str := c.hash ++ ' ' :: c.subject

/-- The whole `--oneline` output for commits `cs` at a fixed instant. -/
def oneline_render (cs : List CommitInfo) : Str := joinChar '\n' (cs.map oneline_line)

/-- One line of the `--format="%h|%an|%ae|%s|%ci"` log output. -/
def details_line (c : CommitInfo) : Str :=
  c.hash ++ '|' :: (c.author_name ++ '|' :: (c.author_email ++ '|' ::
    (c.subject ++ '|' :: c.date)))

/-- The whole details output for the same commits at the same instant. -/
def details_render (cs : List CommitInfo) : Str := joinChar '\n' (cs.map details_line)

/-- A commit none of whose reported fields contains a newline or the
field delimiter `|`. -/
def fieldClean (c : CommitInfo) : Prop :=
  ('\n' ∉ c.hash ∧ '|' ∉ c.hash) ∧
  ('\n' ∉ c.author_name ∧ '|' ∉ c.author_name) ∧
  ('\n' ∉ c.author_email ∧ '|' ∉ c.author_email) ∧
  ('\n' ∉ c.subject ∧ '|' ∉ c.subject) ∧
  ('\n' ∉ c.date ∧ '|' ∉ c.date)

theorem oneline_line_ne_nil (c : CommitInfo) : oneline_line c ≠ [] := by
  unfold oneline_line
  simp

theorem details_line_ne_nil (c : CommitInfo) : details_line c ≠ [] := by
  unfold details_line
  simp

theorem oneline_line_no_newline {c : CommitInfo} (h : fieldClean c) :
    '\n' ∉ oneline_line c := by
  obtain ⟨⟨ha, _⟩, _, _, ⟨hs, _⟩, _⟩ := h
  unfold oneline_line
  intro hm
  rcases List.mem_append.mp hm with hm | hm
  · exact ha hm
  · rcases List.mem_cons.mp hm with hm | hm
    · exact absurd hm (by decide)
    · exact hs hm

theorem details_line_no_newline {c : CommitInfo} (h : fieldClean c) :
    '\n' ∉ details_line c := by
  obtain ⟨⟨h1, _⟩, ⟨h2, _⟩, ⟨h3, _⟩, ⟨h4, _⟩, ⟨h5, _⟩⟩ := h
  unfold details_line
  intro hm
  rcases List.mem_append.mp hm with hm | hm
  · exact h1 hm
  rcases List.mem_cons.mp hm with hm | hm
  · exact absurd hm (by decide)
  rcases List.mem_append.mp hm with hm | hm
  · exact h2 hm
  rcases List.mem_cons.mp hm with hm | hm
  · exact absurd hm (by decide)
  rcases List.mem_append.mp hm with hm | hm
  · exact h3 hm
  rcases List.mem_cons.mp hm with hm | hm
  · exact absurd hm (by decide)
  rcases List.mem_append.mp hm with hm | hm
  · exact h4 hm
  rcases List.mem_cons.mp hm with hm | hm
  · exact absurd hm (by decide)
  exact h5 hm

theorem parseCommitLine_details_line {c : CommitInfo} (h : fieldClean c) :
    parseCommitLine (details_line c) = some c := by
  obtain ⟨⟨_, h1⟩, ⟨_, h2⟩, ⟨_, h3⟩, ⟨_, h4⟩, ⟨_, h5⟩⟩ := h
  have hsplit : splitOnChar '|' (details_line c)
      = [c.hash, c.author_name, c.author_email, c.subject, c.date] := by
    unfold details_line
    rw [splitOnChar_append_cons h1, splitOnChar_append_cons h2,
        splitOnChar_append_cons h3, splitOnChar_append_cons h4,
        splitOnChar_of_not_mem h5]
  unfold parseCommitLine
  rw [if_neg (details_line_ne_nil c), hsplit]

theorem filterMap_of_forall_some {α : Type} {f : α → Option α} :
    ∀ {l : List α}, (∀ x ∈ l, f x = some x) → l.filterMap f = l
  | [], _ => rfl
  | x :: xs, h => by
    rw [List.filterMap_cons_some (h x (by simp)),
        filterMap_of_forall_some (fun y hy => h y (List.mem_cons_of_mem x hy))]

theorem get_unmerged_commits_render (git : GitOracle) (base b : Str)
    (cs : List CommitInfo)
    (h1 : git (oneline_cmd base (normalize_branch b)) = oneline_render cs)
    (hs1 : pyStrip (oneline_render cs) = oneline_render cs)
    (hclean : ∀ c ∈ cs, fieldClean c) :
    get_unmerged_commits git base b = cs.length := by
  simp only [get_unmerged_commits, run_git_command]
  rw [h1, hs1]
  cases cs with
  | nil => simp [oneline_render, joinChar]
  | cons c cs' =>
    have hne : oneline_render (c :: cs') ≠ [] := by
      unfold oneline_render
      rw [List.map_cons]
      exact joinChar_cons_ne_nil (oneline_line_ne_nil c)
    rw [if_neg hne]
    unfold oneline_render
    rw [splitOnChar_joinChar (by simp) ?hlines]
    case hlines =>
      intro l hl
      obtain ⟨c0, hc0, rfl⟩ := List.mem_map.mp hl
      exact oneline_line_no_newline (hclean c0 hc0)
    simp

theorem get_unmerged_commit_details_render (git : GitOracle) (base b : Str)
    (cs : List CommitInfo)
    (h2 : git (details_cmd base (normalize_branch b)) = details_render cs)
    (hs2 : pyStrip (details_render cs) = details_render cs)
    (hclean : ∀ c ∈ cs, fieldClean c) :
    get_unmerged_commit_details git base b = cs := by
  simp only [get_unmerged_commit_details, run_git_command]
  rw [h2, hs2]
  cases cs with
  | nil => simp [details_render, joinChar]
  | cons c cs' =>
    have hne : details_render (c :: cs') ≠ [] := by
      unfold details_render
      rw [List.map_cons]
      exact joinChar_cons_ne_nil (details_line_ne_nil c)
    rw [if_neg hne]
    unfold details_render
    rw [splitOnChar_joinChar (by simp) ?hlines]
    case hlines =>
      intro l hl
      obtain ⟨c0, hc0, rfl⟩ := List.mem_map.mp hl
      exact details_line_no_newline (hclean c0 hc0)
    rw [List.filterMap_map]
    exact filterMap_of_forall_some
      (fun x hx => parseCommitLine_details_line (hclean x hx))

/-- C1 (amended): at a fixed instant — both log queries reflecting one
commit list `cs` — the detail-list length equals the unmerged count
provided no reported field of any commit contains the delimiter `|`
(or a newline): a commit with `|` in a field is dropped from
`get_unmerged_commit_details` while still counted by
`get_unmerged_commits`. -/
theorem c1_details_length_eq_count (git : GitOracle) (base b : Str)
    (cs : List CommitInfo)
    (h1 : git (oneline_cmd base (normalize_branch b)) = oneline_render cs)
    (h2 : git (details_cmd base (normalize_branch b)) = details_render cs)
    (hs1 : pyStrip (oneline_render cs) = oneline_render cs)
    (hs2 : pyStrip (details_render cs) = details_render cs)
    (hclean : ∀ c ∈ cs, fieldClean c) :
    (get_unmerged_commit_details git base b).length
      = get_unmerged_commits git base b := by
  rw [get_unmerged_commit_details_render git base b cs h2 hs2 hclean,
      get_unmerged_commits_render git base b cs h1 hs1 hclean]

/-- A commit whose subject contains the field delimiter `|`. -/
def c1_bad_commit : CommitInfo :=
  { hash := "a1b2c3d".data, author_name := "Test User".data,
    author_email := "test@example.com".data, subject := "fix|tweak".data,
    date := "2024-01-02 03:04:05 +0300".data }

/-- A snapshot where branch `feat` has exactly the one commit
`c1_bad_commit` — both log queries reflect that same instant. -/
def c1_git : GitOracle := fun cmd =>
  if cmd = oneline_cmd devBase (normalize_branch ("feat".data)) then
    oneline_render [c1_bad_commit]
  else if cmd = details_cmd devBase (normalize_branch ("feat".data)) then
    details_render [c1_bad_commit]
  else []

/-- C1 counterexample: the single unmerged commit's subject contains
`|`, so its details line has six fields and is dropped — the detail
list is empty while the count is 1. -/
theorem c1_counterexample :
    ¬ ((get_unmerged_commit_details c1_git devBase ("feat".data)).length
        = get_unmerged_commits c1_git devBase ("feat".data)) := by
  rw [show (get_unmerged_commit_details c1_git devBase ("feat".data)).length
        = 0 from rfl,
      show get_unmerged_commits c1_git devBase ("feat".data) = 1 from rfl]
  decide

/-- A commit with clean fields. -/
def c1_good_commit : CommitInfo :=
  { hash := "a1b2c3d".data, author_name := "Test User".data,
    author_email := "test@example.com".data, subject := "fix tweak".data,
    date := "2024-01-02 03:04:05 +0300".data }

/-- A snapshot where branch `feat` has exactly the one commit
`c1_good_commit`. -/
def c1w_git : GitOracle := fun cmd =>
  if cmd = oneline_cmd devBase (normalize_branch ("feat".data)) then
    oneline_render [c1_good_commit]
  else if cmd = details_cmd devBase (normalize_branch ("feat".data)) then
    details_render [c1_good_commit]
  else []

theorem c1_details_length_eq_count_witness :
    (get_unmerged_commit_details c1w_git devBase ("feat".data)).length
      = get_unmerged_commits c1w_git devBase ("feat".data) :=
  c1_details_length_eq_count c1w_git devBase ("feat".data) [c1_good_commit]
    rfl rfl rfl rfl (by
      intro c hc
      rw [List.mem_singleton] at hc
      subst hc
      unfold fieldClean
      decide)
